import Mathlib

/-!
Verification development for the FamilyHealth measurement core
(`src/hooks/useMeasurements.js`): the paginated measurement collection
manager (`useMeasurements`) and the chart data transforms
(`useWeightChartData`, in its day-bucketed and slice variants).

The JavaScript hook is a single-threaded state machine: every remote call
(fetch / insert / delete) settles with either data or an error, and the
hook then updates its state synchronously.  We embed each operation as a
pure step function from the current collection state and the settled
remote response to the next collection state.  JavaScript numbers used
here are integers (counts, ids, epoch timestamps) or decimals (weights);
we model counts as `Int` (the code applies `Math.max` flooring, so the
type must admit the subtraction), timestamps as `Nat` epoch minutes, and
weights as `ℚ`.
-/

namespace FamilyHealth

/-- A measurement row as used by the hook: the fields the code reads.
`measured_at` is an epoch timestamp in minutes (the local-timezone offset
can be absorbed into the epoch origin), `weight_kg` the decimal weight.
The remaining optional metric columns of the table are never touched by
the collection manager or the chart transforms, so they are omitted. -/
structure Measurement where
  id : Nat
  user_id : Nat
  measured_at : Nat
  weight_kg : ℚ
  deriving Repr, DecidableEq

/-- The state owned by `useMeasurements`: the loaded rows (newest first),
the remote total count, the two busy flags, the error slot, and the
pagination cursor `pageRef` (the second source variant keeps the cursor in
a `page` state variable instead of a ref; its transitions are identical). -/
structure CollectionState where
  measurements : List Measurement
  totalCount : Int
  isLoading : Bool
  isLoadingMore : Bool
  error : Option String
  pageRef : Nat
  deriving Repr, DecidableEq

/-- `useState` initial values: `[]`, `0`, `false`, `false`, `null`, `0`. -/
def initialState : CollectionState :=
  { measurements := [], totalCount := 0, isLoading := false,
    isLoadingMore := false, error := none, pageRef := 0 }

/-- `const hasMore = measurements.length < totalCount`. -/
def hasMore (s : CollectionState) : Bool :=
  (s.measurements.length : Int) < s.totalCount

/-- `const latestMeasurement = measurements.length > 0 ? measurements[0] : null`. -/
def latestMeasurement (s : CollectionState) : Option Measurement :=
  s.measurements.head?

/-- The settled outcome of the supabase select in `fetchMeasurements`:
either row data plus an exact count (each of which the client may report
as `null`, handled by `?? []` and `?? 0` in the source), or an error. -/
inductive FetchResult where
  | ok (data : Option (List Measurement)) (count : Option Int)
  | err (message : String)

/-- The fallback message of `err?.message || 'Error al cargar las mediciones'`. -/
def defaultFetchErrorMessage : String := "Error al cargar las mediciones"

/-- JavaScript `a || b` on strings: the empty string is falsy. -/
def jsOrDefault (msg dflt : String) : String :=
  if msg = "" then dflt else msg

/-- The offset requested by `fetchMeasurements`:
`currentPage = reset ? 0 : pageRef.current; from = currentPage * limit`. -/
def requestedFrom (limit : Nat) (s : CollectionState) (reset : Bool) : Nat :=
  (if reset then 0 else s.pageRef) * limit

/-- One settled run of `fetchMeasurements({ reset })` given the remote
response `r`.  On success the code stores `count ?? 0`, then either
replaces the list and sets the cursor to 1 (reset) or appends the page
and advances the cursor.  On failure the `catch` block stores the
human-readable message and touches nothing else.  The `finally` block
clears both busy flags in every case, and `setError(null)` at the start
means the error slot is `none` on every success. -/
def fetchStep (limit : Nat) (s : CollectionState) (reset : Bool) (r : FetchResult) :
    CollectionState :=
  match r with
  | .err msg =>
      { s with error := some (jsOrDefault msg defaultFetchErrorMessage),
               isLoading := false, isLoadingMore := false }
  | .ok data count =>
      if reset then
        { s with totalCount := count.getD 0, measurements := data.getD [],
                 pageRef := 1, error := none,
                 isLoading := false, isLoadingMore := false }
      else
        { s with totalCount := count.getD 0,
                 measurements := s.measurements ++ data.getD [],
                 pageRef := s.pageRef + 1, error := none,
                 isLoading := false, isLoadingMore := false }
  -- `limit` only shapes the request (see `requestedFrom`), not the merge
  -- of the response; it is kept as an argument to mirror the closure.

/-- Supabase `.range(from, to)` over the ordered rows of the owner: the
inclusive slice from index `fromIdx` to index `toIdx` (`to` can be
`from - 1` when `limit = 0`, so it is an `Int`). -/
def rangeQuery (store : List Measurement) (fromIdx : Nat) (toIdx : Int) :
    List Measurement :=
  (store.drop fromIdx).take (toIdx + 1 - (fromIdx : Int)).toNat

/-- A settled `fetchMeasurements({ reset })` against a fixed consistent
remote store: `store` is the owner's full row list, already filtered by
`eq('user_id', ...)` and ordered by `measured_at` descending; the remote
answers with the requested range and the exact count. -/
def loadFromStore (limit : Nat) (store : List Measurement) (s : CollectionState)
    (reset : Bool) : CollectionState :=
  let fromIdx := requestedFrom limit s reset
  fetchStep limit s reset
    (.ok (some (rangeQuery store fromIdx ((fromIdx : Int) + (limit : Int) - 1)))
      (some (store.length : Int)))

/-- One `addMeasurement(payload)` call given the settled remote insert
outcome: on success the echoed stored row is prepended and the count
incremented, and the row is returned; on failure the code throws before
any state update.  The second component is what the caller observes. -/
def addMeasurement (s : CollectionState) (r : Except String Measurement) :
    CollectionState × Except String Measurement :=
  match r with
  | .ok stored =>
      ({ s with measurements := stored :: s.measurements,
                totalCount := s.totalCount + 1 }, .ok stored)
  | .error e => (s, .error e)

/-- One `deleteMeasurement(measurementId)` call given the settled remote
delete outcome: on success the rows with that id are filtered out and the
count decremented with `Math.max(prev - 1, 0)`; on failure the code
throws before any state update. -/
def deleteMeasurement (s : CollectionState) (measurementId : Nat)
    (r : Except String Unit) : CollectionState × Except String Unit :=
  match r with
  | .ok _ =>
      ({ s with measurements := s.measurements.filter (fun m => m.id != measurementId),
                totalCount := max (s.totalCount - 1) 0 }, .ok ())
  | .error e => (s, .error e)

/-- States of the collection manager reachable by settled loads against a
fixed consistent store: the initial state, `refetch` (= load with
`reset = true`; resetting `pageRef.current` to 0 first does not change
the outcome since a reset load ignores the cursor), and `fetchMore`
(= load with `reset = false`). -/
inductive Reaches (limit : Nat) (store : List Measurement) : CollectionState → Prop
  | init : Reaches limit store initialState
  | refetch {s} : Reaches limit store s → Reaches limit store (loadFromStore limit store s true)
  | fetchMore {s} : Reaches limit store s → Reaches limit store (loadFromStore limit store s false)

/-- A one-row collection state used as concrete test input. -/
def sampleRow : Measurement :=
  { id := 5, user_id := 1, measured_at := 0, weight_kg := 70 }

/-- A collection state holding exactly `sampleRow` with `totalCount = 1`. -/
def oneRowState : CollectionState :=
  { measurements := [sampleRow], totalCount := 1, isLoading := false,
    isLoadingMore := false, error := none, pageRef := 1 }

/-- Inductive invariant for states reached against a fixed consistent
store: the loaded length is `min (pageRef * limit) store.length`, and
`totalCount` is the store's size once any fetch has settled. -/
def ConsistentInv (limit : Nat) (store : List Measurement) (s : CollectionState) : Prop :=
  s.measurements.length = min (s.pageRef * limit) store.length ∧
  s.totalCount = if s.pageRef = 0 then 0 else (store.length : Int)

/-- A store of `n` rows for one owner, newest first (decreasing
`measured_at`, one day apart). -/
def mkStore (n : Nat) : List Measurement :=
  (List.range n).map
    (fun i => { id := i, user_id := 1, measured_at := (n - i) * 1440, weight_kg := 70 })

/-- A fixed remote store of 25 rows. -/
def store25 : List Measurement := mkStore 25

/-- State after `load(reset = true)` with page size 10 against `store25`. -/
def pageA : CollectionState := loadFromStore 10 store25 initialState true

/-- State after one further `loadMore()`. -/
def pageB : CollectionState := loadFromStore 10 store25 pageA false

/-- State after a second `loadMore()`. -/
def pageC : CollectionState := loadFromStore 10 store25 pageB false


/-! ## Chart data transforms (`useWeightChartData`)

The day-bucketed variant groups the (reversed, hence oldest-first) input
by local calendar day with an insertion-ordered `Map`, then maps the last
`maxDays` buckets to chart points.  We embed timestamps as epoch minutes
and `format(dateObj, "yyyy-MM-dd")` as the day index `t / 1440`; a fixed
local-timezone offset is absorbed into the epoch origin. -/

/-- Minutes per calendar day. -/
def minutesPerDay : Nat := 1440

/-- The calendar-day index of a timestamp: the embedding of the
`format(dateObj, "yyyy-MM-dd")` grouping key. -/
def dayKey (t : Nat) : Nat := t / minutesPerDay

/-- The day key of a measurement. -/
def dKey (m : Measurement) : Nat := dayKey m.measured_at

/-- One entry of the insertion-ordered `byDay` map: the day key, the
weights pushed so far (in iteration order), and the `Date` object stored
when the entry was created (the first record seen for that day). -/
structure DayBucket where
  key : Nat
  weights : List ℚ
  date : Nat
  deriving Repr, DecidableEq

/-- One step of the `forEach` body: push the weight onto the existing
entry for the day, or append a fresh entry (a JS `Map` preserves
insertion order). -/
def upsert (bs : List DayBucket) (m : Measurement) : List DayBucket :=
  if bs.any (fun b => b.key == dKey m) then
    bs.map (fun b =>
      if b.key == dKey m then { b with weights := b.weights ++ [m.weight_kg] } else b)
  else
    bs ++ [{ key := dKey m, weights := [m.weight_kg], date := m.measured_at }]

/-- The whole `forEach` loop: fold the records into the `byDay` map. -/
def groupByDay (ms : List Measurement) : List DayBucket := ms.foldl upsert []

/-- `Math.round(x * 10) / 10`: round to one decimal (JS `Math.round`
rounds halves toward positive infinity, as does Mathlib `round`). -/
def round1 (x : ℚ) : ℚ := ((round (x * 10) : ℤ) : ℚ) / 10

/-- A chart point of the day-bucketed variant.  The presentational
`label` string (locale date formatting) is not modeled. -/
structure ChartPoint where
  date : Nat
  weight : ℚ
  isAverage : Bool
  count : Nat
  deriving Repr, DecidableEq

/-- The `.map` body: bucket to chart point, averaging the weights
(`reduce((a, b) => a + b, 0) / length`, rounded to one decimal) and
tagging `isAverage = weights.length > 1`. -/
def bucketToPoint (b : DayBucket) : ChartPoint :=
  { date := b.date,
    weight := round1 (b.weights.sum / (b.weights.length : ℚ)),
    isAverage := decide (1 < b.weights.length),
    count := b.weights.length }

/-- JS `array.slice(-n)`: the last `n` entries — except that `slice(-0)`
is `slice(0)`, the whole array. -/
def jsSliceLast (l : List DayBucket) (n : Nat) : List DayBucket :=
  if n = 0 then l else l.drop (l.length - n)

/-- The non-empty path of the day-bucketed transform, taking the input
already reversed (oldest first): group by day, keep the last `maxDays`
buckets, map to chart points. -/
def chartCore (msReversed : List Measurement) (maxDays : Nat) : List ChartPoint :=
  (jsSliceLast (groupByDay msReversed) maxDays).map bucketToPoint

/-- `useWeightChartData(measurements, maxDays)` (day-bucketed variant):
the `!measurements?.length` guard returns `[]` for a null or empty list;
otherwise the copied input is reversed and processed by `chartCore`. -/
def useWeightChartData (measurements : Option (List Measurement)) (maxDays : Nat) :
    List ChartPoint :=
  match measurements with
  | none => []
  | some ms => if ms.length = 0 then [] else chartCore ms.reverse maxDays

/-- A chart point of the slice variant (again without the `label`). -/
structure SlicePoint where
  date : Nat
  weight : ℚ
  deriving Repr, DecidableEq

/-- `useWeightChartData(measurements, maxPoints)` (slice variant of the
second source file): guard on null/empty, then
`slice(0, maxPoints).reverse().map(...)`. -/
def useWeightChartDataSlice (measurements : Option (List Measurement)) (maxPoints : Nat) :
    List SlicePoint :=
  match measurements with
  | none => []
  | some ms =>
      if ms.length = 0 then []
      else ((ms.take maxPoints).reverse).map
        (fun m => { date := m.measured_at, weight := m.weight_kg })

/-- Aliasing-aware model of one call of the day-bucketed transform.  The
heap is the list of live arrays; an array reference is an index.
`[...measurements]` allocates a fresh copy at the end of the heap, the
in-place `.reverse()` then mutates that copy (modeled by `List.set` on
the heap), and the remaining steps only read.  Returns the heap after the
call together with the produced chart points. -/
def runChart (h : List (List Measurement)) (input : Nat) (maxDays : Nat) :
    List (List Measurement) × List ChartPoint :=
  let arr := h.getD input []
  if arr.length = 0 then (h, [])
  else
    let copyRef := h.length
    let h1 := h ++ [arr]
    let h2 := h1.set copyRef ((h1.getD copyRef []).reverse)
    (h2, chartCore (h2.getD copyRef []) maxDays)

/-- The number of distinct calendar days spanned by a measurement list. -/
def numDistinctDays (ms : List Measurement) : Nat := ((ms.map dKey).dedup).length

/-- Five records on five consecutive days, newest first. -/
def fiveDayInput : List Measurement :=
  [ { id := 5, user_id := 1, measured_at := 5 * 1440 + 30, weight_kg := 74 },
    { id := 4, user_id := 1, measured_at := 4 * 1440 + 30, weight_kg := 73 },
    { id := 3, user_id := 1, measured_at := 3 * 1440 + 30, weight_kg := 72 },
    { id := 2, user_id := 1, measured_at := 2 * 1440 + 30, weight_kg := 71 },
    { id := 1, user_id := 1, measured_at := 1 * 1440 + 30, weight_kg := 70 } ]

/-- Two measurements on the same calendar day, newest first, with
weights 71.0 and 70.0. -/
def twoSameDayInput : List Measurement :=
  [ { id := 2, user_id := 1, measured_at := 600, weight_kg := 71 },
    { id := 1, user_id := 1, measured_at := 60, weight_kg := 70 } ]

/-- The single bucket those two records produce: mean 70.5, flagged as
an average of 2. -/
def sameDayPoint : ChartPoint :=
  { date := 60, weight := 70.5, isAverage := true, count := 2 }

/-! ## Theorems -/

/-- Filtering out an id that no loaded row carries keeps the list intact. -/
theorem filter_ne_id_of_not_mem (l : List Measurement) (i : Nat)
    (h : i ∉ l.map (·.id)) : l.filter (fun m => m.id != i) = l := by
  refine List.filter_eq_self.mpr ?_
  intro m hm
  simp only [bne_iff_ne, ne_eq]
  intro hid
  exact h (List.mem_map.mpr ⟨m, hm, hid⟩)

/-- Filtering out an id carried by exactly one loaded row (ids are nodup)
drops exactly that row. -/
theorem length_filter_ne_id (l : List Measurement) (i : Nat)
    (hnd : (l.map (·.id)).Nodup) (hmem : i ∈ l.map (·.id)) :
    (l.filter (fun m => m.id != i)).length + 1 = l.length := by
  induction l with
  | nil => simp at hmem
  | cons a t ih =>
    simp only [List.map_cons, List.nodup_cons] at hnd
    by_cases hai : a.id = i
    · rw [List.filter_cons_of_neg (by simp [hai])]
      rw [filter_ne_id_of_not_mem t i (hai ▸ hnd.1)]
      simp
    · have hmt : i ∈ t.map (·.id) := by
        rcases List.mem_map.mp hmem with ⟨m, hm, hid⟩
        rcases List.mem_cons.mp hm with rfl | hmt
        · exact absurd hid hai
        · exact List.mem_map.mpr ⟨m, hmt, hid⟩
      rw [List.filter_cons_of_pos (by simpa using hai)]
      simp only [List.length_cons]
      rw [← ih hnd.2 hmt]

/-- C2: a successful `create(payload)` grows the loaded sequence by exactly
one, puts the row echoed by the remote insert at index 0, increments
`totalCount` by exactly one, and returns the echoed row to the caller. -/
theorem addMeasurement_success_spec (s : CollectionState) (stored : Measurement) :
    ((addMeasurement s (.ok stored)).1.measurements.length
        = s.measurements.length + 1) ∧
    (addMeasurement s (.ok stored)).1.measurements.head? = some stored ∧
    (addMeasurement s (.ok stored)).1.totalCount = s.totalCount + 1 ∧
    (addMeasurement s (.ok stored)).2 = .ok stored := by
  refine ⟨?_, rfl, rfl, rfl⟩
  simp [addMeasurement]

/-- C3: a successful `remove(id)` of an id present in the loaded sequence
(ids are unique, as the remote store assigns them) drops exactly one row,
leaves no row with that id behind, and decrements `totalCount` by one,
floored at zero. -/
theorem deleteMeasurement_present_spec (s : CollectionState) (i : Nat)
    (hnd : (s.measurements.map (·.id)).Nodup)
    (hmem : i ∈ s.measurements.map (·.id)) :
    ((deleteMeasurement s i (.ok ())).1.measurements.length + 1
        = s.measurements.length) ∧
    i ∉ (deleteMeasurement s i (.ok ())).1.measurements.map (·.id) ∧
    (deleteMeasurement s i (.ok ())).1.totalCount = max (s.totalCount - 1) 0 := by
  refine ⟨length_filter_ne_id _ _ hnd hmem, ?_, rfl⟩
  intro hin
  rcases List.mem_map.mp hin with ⟨m, hm, hid⟩
  have := (List.mem_filter.mp hm).2
  rw [hid] at this
  simp at this

/-- C3 witness: deleting the only loaded row by its id. -/
theorem deleteMeasurement_present_spec_witness :
    ((deleteMeasurement oneRowState 5 (.ok ())).1.measurements.length + 1
        = oneRowState.measurements.length) ∧
    5 ∉ (deleteMeasurement oneRowState 5 (.ok ())).1.measurements.map (·.id) ∧
    (deleteMeasurement oneRowState 5 (.ok ())).1.totalCount
        = max (oneRowState.totalCount - 1) 0 :=
  deleteMeasurement_present_spec oneRowState 5 (by decide) (by decide)

/-- C4: a successful `remove(id)` of an id absent from the loaded sequence
leaves the sequence unchanged (the filter is a no-op) yet still decrements
`totalCount` (floored at zero); when the state was tight
(`totalCount ≤ loaded.length`, list nonempty) this leaves
`totalCount` strictly below `loaded.length`. -/
theorem deleteMeasurement_absent_spec (s : CollectionState) (i : Nat)
    (h : i ∉ s.measurements.map (·.id)) :
    (deleteMeasurement s i (.ok ())).1.measurements = s.measurements ∧
    (deleteMeasurement s i (.ok ())).1.totalCount = max (s.totalCount - 1) 0 ∧
    (s.totalCount ≤ (s.measurements.length : Int) → s.measurements ≠ [] →
      (deleteMeasurement s i (.ok ())).1.totalCount
        < ((deleteMeasurement s i (.ok ())).1.measurements.length : Int)) := by
  have heq : (deleteMeasurement s i (.ok ())).1.measurements = s.measurements :=
    filter_ne_id_of_not_mem _ _ h
  refine ⟨heq, rfl, ?_⟩
  intro hle hne
  have hlen : 0 < s.measurements.length := List.length_pos.mpr hne
  rw [heq]
  show max (s.totalCount - 1) 0 < (s.measurements.length : Int)
  have : (0 : Int) < (s.measurements.length : Int) := by exact_mod_cast hlen
  omega

/-- C4 witness: removing an absent id from a one-row state with
`totalCount = 1` keeps the row but drops the count to 0, strictly below
the loaded length. -/
theorem deleteMeasurement_absent_spec_witness :
    (deleteMeasurement oneRowState 99 (.ok ())).1.measurements
        = oneRowState.measurements ∧
    (deleteMeasurement oneRowState 99 (.ok ())).1.totalCount
        = max (oneRowState.totalCount - 1) 0 ∧
    (oneRowState.totalCount ≤ (oneRowState.measurements.length : Int) →
      oneRowState.measurements ≠ [] →
      (deleteMeasurement oneRowState 99 (.ok ())).1.totalCount
        < ((deleteMeasurement oneRowState 99 (.ok ())).1.measurements.length : Int)) :=
  deleteMeasurement_absent_spec oneRowState 99 (by decide)

/-- C6: error atomicity.  A failed fetch stores the human-readable message
(falling back to the Spanish default for a blank message), leaves the
loaded rows, `totalCount` and the cursor untouched, and clears both busy
flags; a failed insert or delete propagates the error to the caller with
the state untouched. -/
theorem error_paths_leave_collection_unchanged (limit : Nat) (s : CollectionState)
    (reset : Bool) (msg : String) (i : Nat) :
    (fetchStep limit s reset (.err msg)).measurements = s.measurements ∧
    (fetchStep limit s reset (.err msg)).totalCount = s.totalCount ∧
    (fetchStep limit s reset (.err msg)).pageRef = s.pageRef ∧
    (fetchStep limit s reset (.err msg)).error
      = some (jsOrDefault msg defaultFetchErrorMessage) ∧
    (fetchStep limit s reset (.err msg)).isLoading = false ∧
    (fetchStep limit s reset (.err msg)).isLoadingMore = false ∧
    addMeasurement s (.error msg) = (s, .error msg) ∧
    deleteMeasurement s i (.error msg) = (s, .error msg) :=
  ⟨rfl, rfl, rfl, rfl, rfl, rfl, rfl, rfl⟩

/-- A page request against a store of `N` rows returns
`min limit (N - fromIdx)` rows. -/
theorem rangeQuery_length (store : List Measurement) (fromIdx limit : Nat) :
    (rangeQuery store fromIdx ((fromIdx : Int) + (limit : Int) - 1)).length
      = min limit (store.length - fromIdx) := by
  unfold rangeQuery
  have h : ((fromIdx : Int) + (limit : Int) - 1 + 1 - (fromIdx : Int)).toNat = limit := by
    omega
  rw [h, List.length_take, List.length_drop]

theorem consistentInv_init (limit : Nat) (store : List Measurement) :
    ConsistentInv limit store initialState := by
  constructor <;> simp [initialState]

theorem consistentInv_load (limit : Nat) (store : List Measurement)
    (s : CollectionState) (reset : Bool) (h : ConsistentInv limit store s) :
    ConsistentInv limit store (loadFromStore limit store s reset) := by
  obtain ⟨h1, h2⟩ := h
  cases reset with
  | true =>
    constructor
    · show (rangeQuery store _ _).length = min (1 * limit) store.length
      rw [rangeQuery_length]
      simp [requestedFrom]
    · simp [loadFromStore, fetchStep, requestedFrom]
  | false =>
    constructor
    · show (s.measurements ++ rangeQuery store _ _).length
        = min ((s.pageRef + 1) * limit) store.length
      rw [List.length_append, h1]
      show min (s.pageRef * limit) store.length
          + (rangeQuery store (s.pageRef * limit)
              (((s.pageRef * limit : Nat) : Int) + (limit : Int) - 1)).length
        = min ((s.pageRef + 1) * limit) store.length
      rw [rangeQuery_length, Nat.succ_mul]
      generalize s.pageRef * limit = a
      omega
    · simp [loadFromStore, fetchStep, requestedFrom]

theorem reaches_consistentInv {limit : Nat} {store : List Measurement}
    {s : CollectionState} (h : Reaches limit store s) :
    ConsistentInv limit store s := by
  induction h with
  | init => exact consistentInv_init limit store
  | refetch _ ih => exact consistentInv_load _ _ _ _ ih
  | fetchMore _ ih => exact consistentInv_load _ _ _ _ ih

/-- C1 counterexample: the invariant `loaded.length <= totalCount` does
not survive every response the remote may return.  From a state holding
one row, a settled non-reset fetch answering with no rows and an exact
count of 0 (the rows were deleted remotely) leaves one loaded row but
`totalCount = 0`. -/
theorem fetch_totalCount_can_drop_below_loaded :
    ¬ (((fetchStep 20 oneRowState false (.ok (some []) (some 0))).measurements.length : Int)
        ≤ (fetchStep 20 oneRowState false (.ok (some []) (some 0))).totalCount) := by
  decide

/-- C1 (amended): after every settled fetch, `hasMore` equals
`loaded.length < totalCount` (it is derived exactly so); and
`loaded.length <= totalCount` holds along every sequence of loads whose
responses come from a fixed consistent remote store — but not for
arbitrary responses, e.g. a count that dropped below the rows already
loaded. -/
theorem reachable_hasMore_and_le_invariant (limit : Nat) (store : List Measurement)
    (s : CollectionState) (h : Reaches limit store s) :
    hasMore s = decide ((s.measurements.length : Int) < s.totalCount) ∧
    (s.measurements.length : Int) ≤ s.totalCount := by
  obtain ⟨h1, h2⟩ := reaches_consistentInv h
  refine ⟨rfl, ?_⟩
  rw [h1, h2]
  by_cases hp : s.pageRef = 0
  · simp [hp]
  · rw [if_neg hp]
    exact_mod_cast Nat.min_le_right _ _

/-- C1 witness: the invariant instantiated after one reset load against a
one-row store. -/
theorem reachable_hasMore_and_le_invariant_witness :
    hasMore (loadFromStore 20 [sampleRow] initialState true)
      = decide (((loadFromStore 20 [sampleRow] initialState true).measurements.length : Int)
          < (loadFromStore 20 [sampleRow] initialState true).totalCount) ∧
    ((loadFromStore 20 [sampleRow] initialState true).measurements.length : Int)
      ≤ (loadFromStore 20 [sampleRow] initialState true).totalCount :=
  reachable_hasMore_and_le_invariant 20 [sampleRow] _ (Reaches.refetch Reaches.init)

/-- C5: end-to-end pagination over a fixed 25-row store with page size
10: the reset load requests offset 0 and yields 10 rows with `hasMore`;
the next `loadMore()` requests offset 10 and reaches 20 rows; the second
`loadMore()` requests offset 20 and reaches 25 rows with `hasMore`
false; each fetch requests offset = cursor x pageSize and advances the
cursor by one page. -/
theorem pagination_scenario_25_by_10 :
    store25.length = 25 ∧
    requestedFrom 10 initialState true = 0 ∧
    pageA.measurements.length = 10 ∧ hasMore pageA = true ∧ pageA.pageRef = 1 ∧
    requestedFrom 10 pageA false = 10 ∧
    pageB.measurements.length = 20 ∧ pageB.pageRef = 2 ∧
    requestedFrom 10 pageB false = 20 ∧
    pageC.measurements.length = 25 ∧ hasMore pageC = false ∧ pageC.pageRef = 3 := by
  decide


/-- C9: both chart transform variants return `[]` for a null or empty
input list, and (being total functions on every input) never throw. -/
theorem chart_empty_input_spec (mx : Nat) :
    useWeightChartData none mx = [] ∧
    useWeightChartData (some []) mx = [] ∧
    useWeightChartDataSlice none mx = [] ∧
    useWeightChartDataSlice (some []) mx = [] :=
  ⟨rfl, rfl, rfl, rfl⟩

/-- Reading the freshly appended array at index `l.length`. -/
theorem getD_append_len {α : Type _} (l : List α) (a : α) (d : α) :
    (l ++ [a]).getD l.length d = a := by
  induction l with
  | nil => rfl
  | cons x t ih => simpa using ih

/-- Overwriting the freshly appended array at index `l.length`. -/
theorem set_append_len {α : Type _} (l : List α) (a b : α) :
    (l ++ [a]).set l.length b = l ++ [b] := by
  induction l with
  | nil => rfl
  | cons x t ih => simpa using ih

/-- Evaluation of `runChart` on an empty (or invalid) input array: the
guard returns `[]` and the heap is untouched. -/
theorem runChart_eval_empty (h : List (List Measurement)) (input maxDays : Nat)
    (hg : (h.getD input []).length = 0) :
    runChart h input maxDays = (h, []) := by
  unfold runChart
  rw [if_pos hg]

/-- Evaluation of `runChart` on a non-empty input array: the heap gains
the reversed copy, the input array itself is untouched. -/
theorem runChart_eval (h : List (List Measurement)) (input maxDays : Nat)
    (hg : ¬ (h.getD input []).length = 0) :
    runChart h input maxDays
      = (h ++ [(h.getD input []).reverse],
         chartCore (h.getD input []).reverse maxDays) := by
  unfold runChart
  rw [if_neg hg]
  show ((h ++ [h.getD input []]).set h.length
          ((h ++ [h.getD input []]).getD h.length []).reverse,
        chartCore (((h ++ [h.getD input []]).set h.length
          ((h ++ [h.getD input []]).getD h.length []).reverse).getD h.length []) maxDays)
      = _
  rw [getD_append_len, set_append_len, getD_append_len]

/-- C10: the chart transform is pure.  In the aliasing-aware model, a
call leaves the caller's input array exactly as it was (the spread copies
it before the in-place `reverse`), and a second call made after the
first — reading the input from the post-call heap — produces deep-equal
output. -/
theorem chart_transform_pure (h : List (List Measurement)) (input maxDays : Nat) :
    (runChart h input maxDays).1.getD input [] = h.getD input [] ∧
    (runChart (runChart h input maxDays).1 input maxDays).2
      = (runChart h input maxDays).2 := by
  by_cases hg : (h.getD input []).length = 0
  · constructor
    · rw [runChart_eval_empty _ _ _ hg]
    · rw [runChart_eval_empty _ _ _ hg]
      show (runChart h input maxDays).2 = ([] : List ChartPoint)
      rw [runChart_eval_empty _ _ _ hg]
  · have hlt : input < h.length := by
      by_contra hge
      push_neg at hge
      rw [List.getD_eq_default _ _ hge] at hg
      simp at hg
    have e1 := runChart_eval h input maxDays hg
    have hread : (h ++ [(h.getD input []).reverse]).getD input []
        = h.getD input [] :=
      List.getD_append h _ [] input hlt
    have hg2 : ¬ ((h ++ [(h.getD input []).reverse]).getD input []).length = 0 := by
      rw [hread]; exact hg
    refine ⟨by rw [e1]; exact hread, ?_⟩
    calc (runChart (runChart h input maxDays).1 input maxDays).2
        = (runChart (h ++ [(h.getD input []).reverse]) input maxDays).2 := by rw [e1]
      _ = chartCore ((h ++ [(h.getD input []).reverse]).getD input []).reverse maxDays := by
            rw [runChart_eval _ _ _ hg2]
      _ = chartCore (h.getD input []).reverse maxDays := by rw [hread]
      _ = (runChart h input maxDays).2 := by rw [e1]

/-! ### Structure of the `byDay` grouping -/

theorem any_key_eq (bs : List DayBucket) (k : Nat) :
    bs.any (fun b => b.key == k) = true ↔ k ∈ bs.map (·.key) := by
  rw [List.any_eq_true]
  constructor
  · rintro ⟨b, hb, he⟩
    exact List.mem_map.mpr ⟨b, hb, by simpa using he⟩
  · intro h
    rcases List.mem_map.mp h with ⟨b, hb, he⟩
    exact ⟨b, hb, by simpa using he⟩

theorem upsert_of_mem (bs : List DayBucket) (m : Measurement)
    (h : dKey m ∈ bs.map (·.key)) :
    upsert bs m = bs.map (fun b =>
      if b.key == dKey m then { b with weights := b.weights ++ [m.weight_kg] } else b) := by
  unfold upsert
  rw [if_pos ((any_key_eq bs (dKey m)).mpr h)]

theorem upsert_of_not_mem (bs : List DayBucket) (m : Measurement)
    (h : dKey m ∉ bs.map (·.key)) :
    upsert bs m = bs ++ [{ key := dKey m, weights := [m.weight_kg], date := m.measured_at }] := by
  unfold upsert
  rw [if_neg (fun hc => h ((any_key_eq bs (dKey m)).mp hc))]

theorem upd_key (b : DayBucket) (k : Nat) (w : ℚ) :
    (if b.key == k then { b with weights := b.weights ++ [w] } else b).key = b.key := by
  split <;> rfl

theorem upd_date (b : DayBucket) (k : Nat) (w : ℚ) :
    (if b.key == k then { b with weights := b.weights ++ [w] } else b).date = b.date := by
  split <;> rfl

theorem map_key_upsert_mem (bs : List DayBucket) (m : Measurement)
    (h : dKey m ∈ bs.map (·.key)) :
    (upsert bs m).map (·.key) = bs.map (·.key) := by
  rw [upsert_of_mem bs m h, List.map_map]
  exact List.map_congr_left (fun b _ => upd_key b (dKey m) m.weight_kg)

theorem map_key_upsert_not_mem (bs : List DayBucket) (m : Measurement)
    (h : dKey m ∉ bs.map (·.key)) :
    (upsert bs m).map (·.key) = bs.map (·.key) ++ [dKey m] := by
  rw [upsert_of_not_mem bs m h, List.map_append]
  rfl

/-- The day keys present after the fold are those already present plus
the day keys of the processed records. -/
theorem foldl_upsert_mem (l : List Measurement) :
    ∀ (bs : List DayBucket) (k : Nat),
      k ∈ (l.foldl upsert bs).map (·.key) ↔ k ∈ bs.map (·.key) ∨ k ∈ l.map dKey := by
  induction l with
  | nil => intro bs k; simp
  | cons m t ih =>
    intro bs k
    rw [List.foldl_cons, ih]
    by_cases h : dKey m ∈ bs.map (·.key)
    · rw [map_key_upsert_mem bs m h]
      have hsub : k = dKey m → k ∈ bs.map (·.key) := fun e => e ▸ h
      simp only [List.map_cons, List.mem_cons]
      tauto
    · rw [map_key_upsert_not_mem bs m h]
      simp only [List.map_cons, List.mem_cons, List.mem_append, List.mem_singleton]
      tauto

/-- The fold keeps the day keys nodup and every bucket's stored date on
the bucket's day. -/
theorem foldl_upsert_nodup_dates (l : List Measurement) :
    ∀ bs : List DayBucket,
      (bs.map (·.key)).Nodup → (∀ b ∈ bs, dayKey b.date = b.key) →
      ((l.foldl upsert bs).map (·.key)).Nodup ∧
      ∀ b ∈ l.foldl upsert bs, dayKey b.date = b.key := by
  induction l with
  | nil => intro bs h1 h2; exact ⟨h1, h2⟩
  | cons m t ih =>
    intro bs h1 h2
    rw [List.foldl_cons]
    by_cases h : dKey m ∈ bs.map (·.key)
    · refine ih _ ?_ ?_
      · rw [map_key_upsert_mem bs m h]; exact h1
      · rw [upsert_of_mem bs m h]
        intro b hb
        rcases List.mem_map.mp hb with ⟨b0, hb0, rfl⟩
        rw [upd_key, upd_date]
        exact h2 b0 hb0
    · refine ih _ ?_ ?_
      · rw [map_key_upsert_not_mem bs m h]
        simp [List.nodup_append, h1, h]
      · rw [upsert_of_not_mem bs m h]
        intro b hb
        rcases List.mem_append.mp hb with hb | hb
        · exact h2 b hb
        · rw [List.mem_singleton] at hb
          subst hb
          rfl

/-- Every bucket's weight list after the fold: the weights it started
with (for a bucket already present) followed by the weights of exactly
the processed records of its day, in iteration order. -/
theorem foldl_upsert_weights (l : List Measurement) :
    ∀ bs : List DayBucket, (bs.map (·.key)).Nodup →
      ∀ b ∈ l.foldl upsert bs,
        (∃ b0 ∈ bs, b0.key = b.key ∧
           b.weights = b0.weights ++ (l.filter (fun m => dKey m == b.key)).map (·.weight_kg)) ∨
        (b.key ∉ bs.map (·.key) ∧
           b.weights = (l.filter (fun m => dKey m == b.key)).map (·.weight_kg)) := by
  induction l with
  | nil =>
    intro bs _ b hb
    exact Or.inl ⟨b, hb, rfl, by simp⟩
  | cons m t ih =>
    intro bs hnd b hb
    rw [List.foldl_cons] at hb
    by_cases h : dKey m ∈ bs.map (·.key)
    · have hnd' : ((upsert bs m).map (·.key)).Nodup := by
        rw [map_key_upsert_mem bs m h]; exact hnd
      rcases ih _ hnd' b hb with ⟨b0', hb0', hk, hw⟩ | ⟨hk, hw⟩
      · rw [upsert_of_mem bs m h] at hb0'
        rcases List.mem_map.mp hb0' with ⟨b0, hb0, rfl⟩
        by_cases hc : b0.key = dKey m
        · have hbk : b.key = dKey m := by rw [← hk, upd_key, hc]
          refine Or.inl ⟨b0, hb0, by rw [← hk, upd_key], ?_⟩
          rw [List.filter_cons_of_pos (by simpa using hbk.symm), List.map_cons, hw]
          rw [show (if b0.key == dKey m then
                { b0 with weights := b0.weights ++ [m.weight_kg] } else b0).weights
              = b0.weights ++ [m.weight_kg] from by rw [if_pos (by simpa using hc)]]
          simp
        · have hbk : b.key ≠ dKey m := by rw [← hk, upd_key]; exact hc
          refine Or.inl ⟨b0, hb0, by rw [← hk, upd_key], ?_⟩
          rw [List.filter_cons_of_neg (by simpa using fun e => hbk e.symm), hw]
          rw [show (if b0.key == dKey m then
                { b0 with weights := b0.weights ++ [m.weight_kg] } else b0).weights
              = b0.weights from by rw [if_neg (by simpa using hc)]]
      · rw [map_key_upsert_mem bs m h] at hk
        have hbk : b.key ≠ dKey m := fun e => hk (e ▸ h)
        refine Or.inr ⟨hk, ?_⟩
        rw [List.filter_cons_of_neg (by simpa using fun e => hbk e.symm), hw]
    · have hnd' : ((upsert bs m).map (·.key)).Nodup := by
        rw [map_key_upsert_not_mem bs m h]
        simp [List.nodup_append, hnd, h]
      rcases ih _ hnd' b hb with ⟨b0', hb0', hk, hw⟩ | ⟨hk, hw⟩
      · rw [upsert_of_not_mem bs m h] at hb0'
        rcases List.mem_append.mp hb0' with hb0 | hb0
        · have hbk : b.key ≠ dKey m := by
            rw [← hk]
            exact fun e => h (e ▸ List.mem_map.mpr ⟨b0', hb0, rfl⟩)
          refine Or.inl ⟨b0', hb0, hk, ?_⟩
          rw [List.filter_cons_of_neg (by simpa using fun e => hbk e.symm), hw]
        · rw [List.mem_singleton] at hb0
          subst hb0
          have hbk : b.key = dKey m := hk.symm
          refine Or.inr ⟨fun hc => h (hbk ▸ hc), ?_⟩
          rw [List.filter_cons_of_pos (by simpa using hbk.symm), List.map_cons, hw]
          rfl
      · rw [map_key_upsert_not_mem bs m h] at hk
        have hbs : b.key ∉ bs.map (·.key) := fun hc => hk (List.mem_append.mpr (Or.inl hc))
        have hbk : b.key ≠ dKey m :=
          fun e => hk (List.mem_append.mpr (Or.inr (List.mem_singleton.mpr e)))
        refine Or.inr ⟨hbs, ?_⟩
        rw [List.filter_cons_of_neg (by simpa using fun e => hbk e.symm), hw]

/-- With input records arriving in nondecreasing day order (oldest
first), the buckets of the fold stay in strictly increasing day order —
the insertion order of the JS `Map`. -/
theorem foldl_upsert_sorted (l : List Measurement) :
    ∀ bs : List DayBucket,
      List.Pairwise (fun a b => a.key < b.key) bs →
      (∀ b ∈ bs, ∀ m ∈ l, b.key ≤ dKey m) →
      List.Pairwise (fun a b => dKey a ≤ dKey b) l →
      List.Pairwise (fun a b => a.key < b.key) (l.foldl upsert bs) := by
  induction l with
  | nil => intro bs hp _ _; exact hp
  | cons m t ih =>
    intro bs hp hbound hasc
    rw [List.pairwise_cons] at hasc
    rw [List.foldl_cons]
    by_cases h : dKey m ∈ bs.map (·.key)
    · refine ih _ ?_ ?_ hasc.2
      · rw [upsert_of_mem bs m h]
        rw [List.pairwise_map]
        exact hp.imp (fun {a b} hab => by rw [upd_key, upd_key]; exact hab)
      · rw [upsert_of_mem bs m h]
        intro b hb m' hm'
        rcases List.mem_map.mp hb with ⟨b0, hb0, rfl⟩
        rw [upd_key]
        exact hbound b0 hb0 m' (List.mem_cons_of_mem m hm')
    · refine ih _ ?_ ?_ hasc.2
      · rw [upsert_of_not_mem bs m h, List.pairwise_append]
        refine ⟨hp, List.pairwise_singleton _ _, ?_⟩
        intro a ha c hc
        rw [List.mem_singleton] at hc
        subst hc
        show a.key < dKey m
        have hle := hbound a ha m (List.mem_cons_self m t)
        have hne : a.key ≠ dKey m := fun e => h (e ▸ List.mem_map.mpr ⟨a, ha, rfl⟩)
        omega
      · rw [upsert_of_not_mem bs m h]
        intro b hb m' hm'
        rcases List.mem_append.mp hb with hb | hb
        · exact hbound b hb m' (List.mem_cons_of_mem m hm')
        · rw [List.mem_singleton] at hb
          subst hb
          exact hasc.1 m' hm'

/-- The combined facts about `groupByDay`. -/
theorem groupByDay_facts (l : List Measurement) :
    ((groupByDay l).map (·.key)).Nodup ∧
    (∀ b ∈ groupByDay l, dayKey b.date = b.key) ∧
    (∀ k, k ∈ (groupByDay l).map (·.key) ↔ k ∈ l.map dKey) ∧
    (∀ b ∈ groupByDay l,
      b.weights = (l.filter (fun m => dKey m == b.key)).map (·.weight_kg)) := by
  unfold groupByDay
  obtain ⟨h1, h2⟩ := foldl_upsert_nodup_dates l [] (by simp) (by simp)
  refine ⟨h1, h2, ?_, ?_⟩
  · intro k
    rw [foldl_upsert_mem l [] k]
    simp
  · intro b hb
    rcases foldl_upsert_weights l [] (by simp) b hb with ⟨b0, hb0, _⟩ | ⟨_, hw⟩
    · exact absurd hb0 (List.not_mem_nil b0)
    · exact hw

/-- `groupByDay` over an oldest-first input yields buckets in strictly
increasing day order. -/
theorem groupByDay_sorted (l : List Measurement)
    (h : List.Pairwise (fun a b => dKey a ≤ dKey b) l) :
    List.Pairwise (fun a b => a.key < b.key) (groupByDay l) :=
  foldl_upsert_sorted l [] (by simp) (by simp) h

/-- Day buckets live in different days, so strict key order forces
strict timestamp order. -/
theorem lt_of_dayKey_lt {x y : Nat} (h : dayKey x < dayKey y) : x < y := by
  by_contra hle
  push_neg at hle
  have hd : dayKey y ≤ dayKey x := Nat.div_le_div_right hle
  exact absurd h (Nat.not_lt.mpr hd)

/-- The slice is always a sublist of the bucket list. -/
theorem jsSliceLast_sublist (l : List DayBucket) (n : Nat) :
    (jsSliceLast l n).Sublist l := by
  unfold jsSliceLast
  split
  · exact List.Sublist.refl l
  · exact List.drop_sublist _ l

/-- C7: over a newest-first input (the collection invariant of the hook
that feeds the transform), the day-bucketed chart output is strictly
ascending by date; when the input spans more than `maxDays` distinct
calendar days (and `maxDays` is positive) the output has exactly
`maxDays` points; every output day is an input day; and every input day
missing from the output is older than every output day — the output
keeps exactly the most recent days. -/
theorem chart_sorted_and_recent_days (ms : List Measurement) (maxDays : Nat)
    (hne : ms ≠ [])
    (hsorted : List.Pairwise (fun a b => b.measured_at ≤ a.measured_at) ms)
    (hpos : 0 < maxDays) :
    List.Pairwise (fun p q => p.date < q.date) (useWeightChartData (some ms) maxDays) ∧
    (maxDays < numDistinctDays ms → (useWeightChartData (some ms) maxDays).length = maxDays) ∧
    (∀ p ∈ useWeightChartData (some ms) maxDays, dayKey p.date ∈ ms.map dKey) ∧
    (∀ m ∈ ms, dKey m ∉ (useWeightChartData (some ms) maxDays).map (fun q => dayKey q.date) →
      ∀ p ∈ useWeightChartData (some ms) maxDays, dKey m < dayKey p.date) := by
  have hlen0 : ¬ ms.length = 0 := fun h => hne (List.length_eq_zero.mp h)
  have hout : useWeightChartData (some ms) maxDays
      = (jsSliceLast (groupByDay ms.reverse) maxDays).map bucketToPoint := by
    show (if ms.length = 0 then [] else chartCore ms.reverse maxDays) = _
    rw [if_neg hlen0]
    rfl
  obtain ⟨hnd, hdate, hmem, _⟩ := groupByDay_facts ms.reverse
  have hasc : List.Pairwise (fun a b => dKey a ≤ dKey b) ms.reverse :=
    List.pairwise_reverse.mpr (hsorted.imp (fun hab => Nat.div_le_div_right hab))
  have hGsort : List.Pairwise (fun a b => a.key < b.key) (groupByDay ms.reverse) :=
    groupByDay_sorted ms.reverse hasc
  have hmem' : ∀ k, k ∈ (groupByDay ms.reverse).map (·.key) ↔ k ∈ ms.map dKey := by
    intro k
    rw [hmem k, List.map_reverse, List.mem_reverse]
  have hsub : (jsSliceLast (groupByDay ms.reverse) maxDays).Sublist (groupByDay ms.reverse) :=
    jsSliceLast_sublist _ _
  have hP : List.Pairwise (fun a b => a.key < b.key)
      (jsSliceLast (groupByDay ms.reverse) maxDays) :=
    List.Pairwise.sublist hsub hGsort
  refine ⟨?_, ?_, ?_, ?_⟩
  · rw [hout, List.pairwise_map]
    refine List.Pairwise.imp_of_mem ?_ hP
    intro a b ha hb hab
    have hda := hdate a (hsub.subset ha)
    have hdb := hdate b (hsub.subset hb)
    show a.date < b.date
    exact lt_of_dayKey_lt (by rw [hda, hdb]; exact hab)
  · intro hgt
    have hGlen : (groupByDay ms.reverse).length = numDistinctDays ms := by
      have hperm : ((groupByDay ms.reverse).map (·.key)).Perm ((ms.map dKey).dedup) :=
        (List.perm_ext_iff_of_nodup hnd (List.nodup_dedup _)).mpr
          (fun k => by rw [hmem' k, List.mem_dedup])
      calc (groupByDay ms.reverse).length
          = ((groupByDay ms.reverse).map (·.key)).length := (List.length_map _ _).symm
        _ = ((ms.map dKey).dedup).length := hperm.length_eq
        _ = numDistinctDays ms := rfl
    rw [hout, List.length_map]
    unfold jsSliceLast
    rw [if_neg (by omega : ¬ maxDays = 0), List.length_drop, hGlen]
    omega
  · intro p hp
    rw [hout] at hp
    rcases List.mem_map.mp hp with ⟨b, hb, rfl⟩
    have hbG := hsub.subset hb
    rw [show (bucketToPoint b).date = b.date from rfl, hdate b hbG]
    exact (hmem' b.key).mp (List.mem_map.mpr ⟨b, hbG, rfl⟩)
  · intro m hm hnotin p hp
    have houtmap : (useWeightChartData (some ms) maxDays).map (fun q => dayKey q.date)
        = (jsSliceLast (groupByDay ms.reverse) maxDays).map (·.key) := by
      rw [hout, List.map_map]
      exact List.map_congr_left (fun b hb => hdate b (hsub.subset hb))
    rw [houtmap] at hnotin
    have hkm : dKey m ∈ (groupByDay ms.reverse).map (·.key) :=
      (hmem' _).mpr (List.mem_map.mpr ⟨m, hm, rfl⟩)
    have hsplit : (groupByDay ms.reverse).map (·.key)
        = ((groupByDay ms.reverse).take
              ((groupByDay ms.reverse).length - maxDays)).map (·.key)
          ++ (jsSliceLast (groupByDay ms.reverse) maxDays).map (·.key) := by
      unfold jsSliceLast
      rw [if_neg (by omega : ¬ maxDays = 0), ← List.map_append, List.take_append_drop]
    have hktake : dKey m ∈ ((groupByDay ms.reverse).take
        ((groupByDay ms.reverse).length - maxDays)).map (·.key) := by
      rw [hsplit] at hkm
      rcases List.mem_append.mp hkm with h | h
      · exact h
      · exact absurd h hnotin
    have hpk : List.Pairwise (· < ·) ((groupByDay ms.reverse).map (·.key)) :=
      List.pairwise_map.mpr hGsort
    rw [hsplit] at hpk
    have hcross := (List.pairwise_append.mp hpk).2.2
    rw [hout] at hp
    rcases List.mem_map.mp hp with ⟨b, hb, rfl⟩
    have hbd : b.key ∈ (jsSliceLast (groupByDay ms.reverse) maxDays).map (·.key) :=
      List.mem_map.mpr ⟨b, hb, rfl⟩
    have hlt := hcross _ hktake _ hbd
    rw [show (bucketToPoint b).date = b.date from rfl, hdate b (hsub.subset hb)]
    exact hlt


/-- C7 witness: `maxDays = 2` over measurements spanning 5 distinct days
— exactly the two most recent day buckets, ascending. -/
theorem chart_sorted_and_recent_days_witness :
    List.Pairwise (fun p q => p.date < q.date) (useWeightChartData (some fiveDayInput) 2) ∧
    (2 < numDistinctDays fiveDayInput → (useWeightChartData (some fiveDayInput) 2).length = 2) ∧
    (∀ p ∈ useWeightChartData (some fiveDayInput) 2, dayKey p.date ∈ fiveDayInput.map dKey) ∧
    (∀ m ∈ fiveDayInput,
      dKey m ∉ (useWeightChartData (some fiveDayInput) 2).map (fun q => dayKey q.date) →
      ∀ p ∈ useWeightChartData (some fiveDayInput) 2, dKey m < dayKey p.date) :=
  chart_sorted_and_recent_days fiveDayInput 2 (by decide) (by decide) (by decide)

/-- C8: in the day-bucketed transform, all records of one calendar day
are merged into a single bucket (output day keys are nodup), whose
`count` is the number of merged records, whose `weight` is the
arithmetic mean of their weights rounded to one decimal, and whose
`isAverage` flag is exactly `count > 1`. -/
theorem chart_day_bucket_contents (ms : List Measurement) (maxDays : Nat) :
    ((useWeightChartData (some ms) maxDays).map (fun p => dayKey p.date)).Nodup ∧
    ∀ p ∈ useWeightChartData (some ms) maxDays,
      p.count = (ms.filter (fun m => dKey m == dayKey p.date)).length ∧
      p.weight = round1 (((ms.filter (fun m => dKey m == dayKey p.date)).map (·.weight_kg)).sum
          / ((ms.filter (fun m => dKey m == dayKey p.date)).length : ℚ)) ∧
      p.isAverage = decide (1 < p.count) := by
  by_cases h0 : ms.length = 0
  · constructor
    · show ((if ms.length = 0 then [] else chartCore ms.reverse maxDays).map
          (fun p => dayKey p.date)).Nodup
      rw [if_pos h0]
      exact List.nodup_nil
    · intro p hp
      rw [show useWeightChartData (some ms) maxDays = [] from by
        show (if ms.length = 0 then [] else chartCore ms.reverse maxDays) = []
        rw [if_pos h0]] at hp
      exact absurd hp (List.not_mem_nil p)
  · have hout : useWeightChartData (some ms) maxDays
        = (jsSliceLast (groupByDay ms.reverse) maxDays).map bucketToPoint := by
      show (if ms.length = 0 then [] else chartCore ms.reverse maxDays) = _
      rw [if_neg h0]
      rfl
    obtain ⟨hnd, hdate, _, hw⟩ := groupByDay_facts ms.reverse
    have hsub : (jsSliceLast (groupByDay ms.reverse) maxDays).Sublist
        (groupByDay ms.reverse) := jsSliceLast_sublist _ _
    constructor
    · rw [hout, List.map_map]
      have hmapeq : (jsSliceLast (groupByDay ms.reverse) maxDays).map
            ((fun p => dayKey p.date) ∘ bucketToPoint)
          = (jsSliceLast (groupByDay ms.reverse) maxDays).map (·.key) :=
        List.map_congr_left (fun b hb => hdate b (hsub.subset hb))
      rw [hmapeq]
      exact List.Nodup.sublist (List.Sublist.map _ hsub) hnd
    · intro p hp
      rw [hout] at hp
      rcases List.mem_map.mp hp with ⟨b, hb, rfl⟩
      have hbG := hsub.subset hb
      have hk : dayKey (bucketToPoint b).date = b.key := hdate b hbG
      rw [hk]
      have hwb := hw b hbG
      have hfilt : (ms.reverse.filter (fun m => dKey m == b.key))
          = (ms.filter (fun m => dKey m == b.key)).reverse :=
        List.filter_reverse _ ms
      have hcount : (bucketToPoint b).count
          = (ms.filter (fun m => dKey m == b.key)).length := by
        show b.weights.length = _
        rw [hwb, List.length_map, hfilt, List.length_reverse]
      refine ⟨hcount, ?_, ?_⟩
      · show round1 (b.weights.sum / (b.weights.length : ℚ)) = _
        rw [hwb, hfilt, List.map_reverse, List.sum_reverse, List.length_reverse,
          List.length_map]
      · show decide (1 < b.weights.length) = decide (1 < (bucketToPoint b).count)
        rfl


/-- Concrete evaluation: the two same-day records produce exactly the
single bucket `sameDayPoint`. -/
theorem twoSameDay_eval :
    useWeightChartData (some twoSameDayInput) 30 = [sameDayPoint] := by
  show (if twoSameDayInput.length = 0 then [] else chartCore twoSameDayInput.reverse 30)
      = [sameDayPoint]
  norm_num [twoSameDayInput, chartCore, groupByDay, upsert, dKey, dayKey,
    minutesPerDay, jsSliceLast, bucketToPoint, round1, sameDayPoint]

/-- C8 witness: the two same-day records with weights 70.0 and 71.0
yield exactly one bucket with weight 70.5, `isAverage = true`,
`count = 2`. -/
theorem chart_day_bucket_contents_witness :
    useWeightChartData (some twoSameDayInput) 30 = [sameDayPoint] ∧
    ((useWeightChartData (some twoSameDayInput) 30).map (fun p => dayKey p.date)).Nodup ∧
    (sameDayPoint.count
        = (twoSameDayInput.filter (fun m => dKey m == dayKey sameDayPoint.date)).length ∧
      sameDayPoint.weight
        = round1 (((twoSameDayInput.filter
              (fun m => dKey m == dayKey sameDayPoint.date)).map (·.weight_kg)).sum
            / ((twoSameDayInput.filter
              (fun m => dKey m == dayKey sameDayPoint.date)).length : ℚ)) ∧
      sameDayPoint.isAverage = decide (1 < sameDayPoint.count)) :=
  ⟨twoSameDay_eval,
   (chart_day_bucket_contents twoSameDayInput 30).1,
   (chart_day_bucket_contents twoSameDayInput 30).2 sameDayPoint
     (by rw [twoSameDay_eval]; exact List.mem_singleton.mpr rfl)⟩

end FamilyHealth
